import Mathlib

/-!
# Verification of the uniform badge visualiser layout core

Shallow embedding of the two pure components of
`src/components/UniformBadgeVisualizer.tsx`:

* `fitFontSize` — the text fit estimator (lines 37–62 of the source);
* `computeLayout` — the layout engine (lines 234–321 of the source).

JavaScript numbers are modelled as exact rationals (`ℚ`), `Math.floor`
as `Int.floor`, and `Math.min`/`Math.max` as `min`/`max`.  The two
static JSON reference tables (`slots.json`, `badges.json`) are imported
configuration data for the component; they are modelled as association
lists passed as explicit parameters, with `List.lookup` playing the
role of JavaScript object indexing.
-/

namespace BadgeVisualizer

/-- A slot rectangle from the slot table: `{x, y, w, h, z}`. -/
structure Box where
  x : ℚ
  y : ℚ
  w : ℚ
  h : ℚ
  z : ℚ
  deriving DecidableEq, Repr

/-- An item record from the badge table: `{label, slot, color, asset?}`
(the `category` field is only used by the form controls, not by
`computeLayout`, and is omitted). -/
structure Badge where
  label : String
  slot : String
  color : String
  asset : Option String := none
  deriving DecidableEq, Repr

/-- A placement (`Placed` in the source):
`{id, label, slot, x, y, w, h, z, color, asset?}`. -/
structure Placed where
  id : String
  label : String
  slot : String
  x : ℚ
  y : ℚ
  w : ℚ
  h : ℚ
  z : ℚ
  color : String
  asset : Option String := none
  deriving DecidableEq, Repr

/-- The slot table: mapping from slot identifier to box, modelled as an
association list (first match wins, like a JS object with unique keys). -/
abbrev SlotTable := List (String × Box)

/-- The badge table: mapping from item identifier to its spec. -/
abbrev BadgeTable := List (String × Badge)

/-! ## Text fit estimator (`fitFontSize`, source lines 37–62)

The canvas text-measurement oracle is abstracted as a function
`measure : String → ℚ` returning the rendered width of a string at the
baseline size `BASE = 100` (for the configured weight/family).  The
source guards the oracle's result with
`ctx.measureText(label).width || BASE * 0.6 * label.length`:
a zero measured width falls back to the estimate. -/

/-- `measured` of the source (line 55): the oracle's width at the
baseline size 100, or `100 * 0.6 * label.length` when that width is 0
(JavaScript `||` on a number treats 0 as falsy). -/
def measuredWidth (measure : String → ℚ) (label : String) : ℚ :=
  if measure label = 0 then 100 * (6 / 10) * (label.length : ℚ)
  else measure label

/-- `fitFontSize` of the source (lines 37–62), with the oracle present
(`ctx ≠ null`).  `padding` defaults to 8 and `maxHeightRatio` to 0.7 in
the source; they are explicit parameters here.

In the source, when `measured` is 0 (empty label with a real canvas
oracle), `availableW / measured` is `+Infinity` in JavaScript — note
`availableW = max(10, …) > 0` — so `Math.min(maxFontByHeight, fontByWidth)`
selects `maxFontByHeight`; the first branch below reproduces exactly that. -/
def fitFontSize (measure : String → ℚ) (label : String)
    (boxW boxH padding maxHeightRatio : ℚ) : ℤ :=
  let maxFontByHeight : ℚ := max 10 (boxH * maxHeightRatio)
  let measured : ℚ := measuredWidth measure label
  let availableW : ℚ := max 10 (boxW - padding * 2)
  if measured = 0 then
    max 10 ⌊maxFontByHeight⌋
  else
    max 10 ⌊min maxFontByHeight ((availableW / measured) * 100)⌋

/-- `fitFontSize` when the oracle is unavailable (`!ctx`, line 50):
`Math.floor(Math.min(18, maxFontByHeight))`. -/
def fitFontSizeNoCtx (boxH maxHeightRatio : ℚ) : ℤ :=
  ⌊min 18 (max 10 (boxH * maxHeightRatio))⌋

/-! ## Layout engine (`computeLayout`, source lines 234–321) -/

/-- Resolution of one selected identifier (source lines 240–246):
look the id up in the badge table, then its slot in the slot table;
failure of either lookup skips the item (`continue`).  On success the
initial entry carries the slot's full box geometry. -/
def resolveEntry (slots : SlotTable) (badges : BadgeTable)
    (id : String) : Option Placed :=
  match badges.lookup id with
  | none => none
  | some spec =>
    match slots.lookup spec.slot with
    | none => none
    | some box =>
      some { id := id, label := spec.label, slot := spec.slot,
             x := box.x, y := box.y, w := box.w, h := box.h, z := box.z,
             color := spec.color, asset := spec.asset }

/-- `bySlot[slotKey] ??= []; bySlot[slotKey].push(entry)` (lines 247–248):
append an entry to its slot's group, creating the group at the end on
first occurrence (JavaScript objects iterate string keys in insertion
order, which for these slot identifiers is first-occurrence order). -/
def insertGroup (key : String) (p : Placed) :
    List (String × List Placed) → List (String × List Placed)
  | [] => [(key, [p])]
  | (k, ps) :: rest =>
    if k = key then (k, ps ++ [p]) :: rest
    else (k, ps) :: insertGroup key p rest

/-- One iteration of the grouping loop: skip an unresolvable id,
otherwise insert the entry into its slot's group. -/
def groupStep (slots : SlotTable) (badges : BadgeTable)
    (acc : List (String × List Placed)) (id : String) :
    List (String × List Placed) :=
  match resolveEntry slots badges id with
  | none => acc
  | some p => insertGroup p.slot p acc

/-- The grouping loop (source lines 240–249): resolve each selected id
and group the resolved entries by slot identifier, preserving selection
order inside each group. -/
def groupBySlot (slots : SlotTable) (badges : BadgeTable)
    (selectedIds : List String) : List (String × List Placed) :=
  selectedIds.foldl (groupStep slots badges) []

/-- Pyramid placement for the `safBadges` / `foreignBadges` branch
(source lines 256–290), for `n = min 3 items.length`:
one centered tile, two side-by-side tiles, or one on top of two. -/
def pyramidPlace (box : Box) (items : List Placed) : List Placed :=
  let g : ℚ := 8
  let tileH : ℚ := min box.h 60
  let tileW : ℚ := min box.w 90
  match items with
  | [] => []
  | [a] =>
    [{ a with x := box.x + (box.w - tileW) / 2, y := box.y,
              w := tileW, h := tileH }]
  | [a, b] =>
    let totalW : ℚ := tileW * 2 + g
    let startX : ℚ := box.x + (box.w - totalW) / 2
    [{ a with x := startX, y := box.y, w := tileW, h := tileH },
     { b with x := startX + (tileW + g), y := box.y, w := tileW, h := tileH }]
  | a :: b :: c :: _ =>
    let totalW : ℚ := tileW * 2 + g
    let startX : ℚ := box.x + (box.w - totalW) / 2
    [{ a with x := box.x + (box.w - tileW) / 2, y := box.y,
              w := tileW, h := tileH },
     { b with x := startX, y := box.y + tileH + g, w := tileW, h := tileH },
     { c with x := startX + (tileW + g), y := box.y + tileH + g,
              w := tileW, h := tileH }]

/-- Medal row placement for `medalsBelowRightPocket`
(source lines 291–303): a single centered horizontal row, no cap. -/
def medalRowPlace (box : Box) (items : List Placed) : List Placed :=
  let g : ℚ := 10
  let tileH : ℚ := min box.h 400
  let tileW : ℚ := 50
  let n : ℚ := (items.length : ℚ)
  let totalW : ℚ := n * tileW + (n - 1) * g
  let startX : ℚ := box.x + (box.w - totalW) / 2
  items.mapIdx fun i it =>
    { it with x := startX + (i : ℚ) * (tileW + g), y := box.y,
              w := tileW, h := tileH }

/-- Vertical stack placement for `rightSleeveProficiency`
(source lines 304–313): a downward column of full-width tiles, no cap. -/
def vstackPlace (box : Box) (items : List Placed) : List Placed :=
  let g : ℚ := 8
  let tileH : ℚ := 36
  items.mapIdx fun i it =>
    { it with x := box.x, y := box.y + (i : ℚ) * (tileH + g),
              w := box.w, h := tileH }

/-- One iteration of the per-slot arrangement loop (source lines
251–318): dispatch on the slot key and return this slot's placements
and warnings.  The slot lookup (line 252) always succeeds for keys
produced by the grouping loop; the `none` branch is unreachable there. -/
def arrangeSlot (slots : SlotTable) (slotKey : String)
    (items : List Placed) : List Placed × List String :=
  match slots.lookup slotKey with
  | none => ([], [])
  | some box =>
    if slotKey = "safBadges" ∨ slotKey = "foreignBadges" then
      (pyramidPlace box items,
       if 3 < items.length then
         [slotKey ++ " allows max 3; extra selections ignored."]
       else [])
    else if slotKey = "medalsBelowRightPocket" then
      (medalRowPlace box items, [])
    else if slotKey = "rightSleeveProficiency" then
      (vstackPlace box items, [])
    else
      match items with
      | [] => ([], [])
      | a :: rest =>
        ([a],
         if rest.isEmpty then []
         else [slotKey ++ ": multiple selections; only first shown."])

/-- `computeLayout` (source lines 234–321): group the selection by
slot, arrange every occupied slot in grouping order, and return all
placements and all warnings in that order. -/
def computeLayout (slots : SlotTable) (badges : BadgeTable)
    (selectedIds : List String) : List Placed × List String :=
  let groups := groupBySlot slots badges selectedIds
  (groups.flatMap fun kv => (arrangeSlot slots kv.1 kv.2).1,
   groups.flatMap fun kv => (arrangeSlot slots kv.1 kv.2).2)

/-! ## Derived notions used by the statements -/

/-- The resolvable items routed to a slot by a selection: the slot's
group in the grouping step (empty when the slot is unoccupied). -/
def routedTo (slots : SlotTable) (badges : BadgeTable)
    (selectedIds : List String) (slotKey : String) : List Placed :=
  match (groupBySlot slots badges selectedIds).lookup slotKey with
  | none => []
  | some ps => ps

/-- The placements `computeLayout` produces for one slot. -/
def placementsFor (slots : SlotTable) (badges : BadgeTable)
    (selectedIds : List String) (slotKey : String) : List Placed :=
  (computeLayout slots badges selectedIds).1.filter
    fun p => p.slot = slotKey

/-- The warnings generated while arranging one slot. -/
def slotWarnings (slots : SlotTable) (badges : BadgeTable)
    (selectedIds : List String) (slotKey : String) : List String :=
  (arrangeSlot slots slotKey (routedTo slots badges selectedIds slotKey)).2

/-- Two placements overlap when their open rectangles intersect. -/
def Overlap (p q : Placed) : Prop :=
  p.x < q.x + q.w ∧ q.x < p.x + p.w ∧ p.y < q.y + q.h ∧ q.y < p.y + p.h

/-- First-occurrence order of a list of keys, built the same way the
grouping loop discovers slot identifiers. -/
def firstOccur (keys : List String) : List String :=
  keys.foldl (fun acc k => if k ∈ acc then acc else acc ++ [k]) []

/-- A placement has the same non-geometry fields as another:
id, label, slot, z, color and asset agree. -/
def SameMeta (q p : Placed) : Prop :=
  q.id = p.id ∧ q.label = p.label ∧ q.slot = p.slot ∧ q.z = p.z ∧
  q.color = p.color ∧ q.asset = p.asset

/-! ## Lemmas about resolution and grouping -/

lemma resolveEntry_some_spec {slots : SlotTable} {badges : BadgeTable}
    {id : String} {p : Placed}
    (h : resolveEntry slots badges id = some p) :
    ∃ spec box, badges.lookup id = some spec ∧
      slots.lookup spec.slot = some box ∧
      p.id = id ∧ p.label = spec.label ∧ p.slot = spec.slot ∧
      p.x = box.x ∧ p.y = box.y ∧ p.w = box.w ∧ p.h = box.h ∧
      p.z = box.z ∧ p.color = spec.color ∧ p.asset = spec.asset := by
  cases hb : badges.lookup id with
  | none =>
    simp only [resolveEntry, hb] at h
    exact Option.noConfusion h
  | some spec =>
    cases hs : slots.lookup spec.slot with
    | none =>
      simp only [resolveEntry, hb, hs] at h
      exact Option.noConfusion h
    | some box =>
      simp only [resolveEntry, hb, hs, Option.some.injEq] at h
      exact ⟨spec, box, rfl, hs, by rw [← h], by rw [← h], by rw [← h],
        by rw [← h], by rw [← h], by rw [← h], by rw [← h], by rw [← h],
        by rw [← h], by rw [← h]⟩

lemma resolveEntry_some_id {slots : SlotTable} {badges : BadgeTable}
    {id : String} {p : Placed}
    (h : resolveEntry slots badges id = some p) : p.id = id := by
  obtain ⟨_, _, _, _, hid, _⟩ := resolveEntry_some_spec h
  exact hid

lemma resolveEntry_lookup_slot {slots : SlotTable} {badges : BadgeTable}
    {id : String} {p : Placed}
    (h : resolveEntry slots badges id = some p) :
    slots.lookup p.slot = some ⟨p.x, p.y, p.w, p.h, p.z⟩ := by
  obtain ⟨spec, box, _, hs, _, _, hslot, hx, hy, hw, hh, hz, _⟩ :=
    resolveEntry_some_spec h
  rw [hslot, hs, hx, hy, hw, hh, hz]

lemma insertGroup_map_fst (key : String) (p : Placed)
    (gs : List (String × List Placed)) :
    (insertGroup key p gs).map Prod.fst =
      if key ∈ gs.map Prod.fst then gs.map Prod.fst
      else gs.map Prod.fst ++ [key] := by
  induction gs with
  | nil => simp [insertGroup]
  | cons kv rest ih =>
    obtain ⟨k, ps⟩ := kv
    by_cases hk : k = key
    · subst hk
      simp [insertGroup]
    · simp only [insertGroup, if_neg hk, List.map_cons, ih, List.mem_cons]
      have : ¬ key = k := fun h => hk h.symm
      by_cases hmem : key ∈ rest.map Prod.fst <;>
        simp [hmem, this]

lemma insertGroup_cons_pos (k : String) (p : Placed) (ps : List Placed)
    (rest : List (String × List Placed)) :
    insertGroup k p ((k, ps) :: rest) = (k, ps ++ [p]) :: rest := by
  simp [insertGroup]

lemma insertGroup_cons_neg {k key : String} (hk : ¬ k = key) (p : Placed)
    (ps : List Placed) (rest : List (String × List Placed)) :
    insertGroup key p ((k, ps) :: rest) =
      (k, ps) :: insertGroup key p rest := by
  simp [insertGroup, hk]

lemma insertGroup_forall {P : String → Placed → Prop}
    {key : String} {p : Placed} (hp : P key p) :
    ∀ {gs : List (String × List Placed)},
      (∀ kv ∈ gs, ∀ q ∈ kv.2, P kv.1 q) →
      ∀ kv ∈ insertGroup key p gs, ∀ q ∈ kv.2, P kv.1 q := by
  intro gs
  induction gs with
  | nil =>
    intro _ kv hkv q hq
    simp only [insertGroup, List.mem_singleton] at hkv
    subst hkv
    simp only [List.mem_singleton] at hq
    subst hq
    exact hp
  | cons kv₀ rest ih =>
    obtain ⟨k, ps⟩ := kv₀
    intro hgs
    by_cases hk : k = key
    · subst hk
      rw [insertGroup_cons_pos]
      intro kv hkv q hq
      cases hkv with
      | head =>
        rcases List.mem_append.mp hq with hq | hq
        · exact hgs (k, ps) (List.mem_cons_self _ _) q hq
        · rw [List.mem_singleton.mp hq]
          exact hp
      | tail _ htail =>
        exact hgs kv (List.mem_cons_of_mem _ htail) q hq
    · rw [insertGroup_cons_neg hk]
      intro kv hkv q hq
      cases hkv with
      | head => exact hgs (k, ps) (List.mem_cons_self _ _) q hq
      | tail _ htail =>
        exact ih (fun kv h => hgs kv (List.mem_cons_of_mem _ h)) kv htail q hq

lemma insertGroup_ne_nil {key : String} {p : Placed} :
    ∀ {gs : List (String × List Placed)},
      (∀ kv ∈ gs, kv.2 ≠ []) →
      ∀ kv ∈ insertGroup key p gs, kv.2 ≠ [] := by
  intro gs
  induction gs with
  | nil =>
    intro _ kv hkv
    simp only [insertGroup, List.mem_singleton] at hkv
    subst hkv
    simp
  | cons kv₀ rest ih =>
    obtain ⟨k, ps⟩ := kv₀
    intro hgs
    by_cases hk : k = key
    · subst hk
      rw [insertGroup_cons_pos]
      intro kv hkv
      cases hkv with
      | head => simp
      | tail _ htail => exact hgs kv (List.mem_cons_of_mem _ htail)
    · rw [insertGroup_cons_neg hk]
      intro kv hkv
      cases hkv with
      | head => exact hgs (k, ps) (List.mem_cons_self _ _)
      | tail _ htail =>
        exact ih (fun kv h => hgs kv (List.mem_cons_of_mem _ h)) kv htail

/-- The three-part invariant maintained by the grouping loop:
group keys are distinct, groups are non-empty, and every group member
is a resolved entry filed under its own slot identifier. -/
def GoodGroups (slots : SlotTable) (badges : BadgeTable)
    (gs : List (String × List Placed)) : Prop :=
  (gs.map Prod.fst).Nodup ∧
  (∀ kv ∈ gs, kv.2 ≠ []) ∧
  (∀ kv ∈ gs, ∀ q ∈ kv.2, q.slot = kv.1 ∧
    resolveEntry slots badges q.id = some q)

lemma goodGroups_step {slots : SlotTable} {badges : BadgeTable}
    {gs : List (String × List Placed)} {id : String}
    (h : GoodGroups slots badges gs) :
    GoodGroups slots badges (groupStep slots badges gs id) := by
  obtain ⟨hnd, hne, hprop⟩ := h
  cases hres : resolveEntry slots badges id with
  | none =>
    have hstep : groupStep slots badges gs id = gs := by
      unfold groupStep; rw [hres]
    rw [hstep]
    exact ⟨hnd, hne, hprop⟩
  | some p =>
    have hstep : groupStep slots badges gs id = insertGroup p.slot p gs := by
      unfold groupStep; rw [hres]
    rw [hstep]
    have hid : p.id = id := resolveEntry_some_id hres
    have hp : p.slot = p.slot ∧ resolveEntry slots badges p.id = some p :=
      ⟨rfl, by rw [hid]; exact hres⟩
    refine ⟨?_, insertGroup_ne_nil hne,
      @insertGroup_forall
        (fun k q => q.slot = k ∧ resolveEntry slots badges q.id = some q)
        p.slot p hp gs hprop⟩
    rw [insertGroup_map_fst]
    by_cases hmem : p.slot ∈ gs.map Prod.fst
    · simpa [hmem] using hnd
    · simp only [if_neg hmem]
      simp [List.nodup_append, hnd, hmem]

lemma goodGroups_foldl {slots : SlotTable} {badges : BadgeTable}
    (ids : List String) :
    ∀ gs, GoodGroups slots badges gs →
      GoodGroups slots badges (ids.foldl (groupStep slots badges) gs) := by
  induction ids with
  | nil => intro gs h; exact h
  | cons id ids ih =>
    intro gs h
    simp only [List.foldl_cons]
    exact ih _ (goodGroups_step h)

lemma groupBySlot_good (slots : SlotTable) (badges : BadgeTable)
    (ids : List String) :
    GoodGroups slots badges (groupBySlot slots badges ids) :=
  goodGroups_foldl ids [] ⟨List.nodup_nil, by simp, by simp⟩

/-! ## Association-list lookup lemmas -/

lemma lookup_eq_some_of_mem {β : Type} :
    ∀ {gs : List (String × β)} {k : String} {ps : β},
      (gs.map Prod.fst).Nodup → (k, ps) ∈ gs → gs.lookup k = some ps := by
  intro gs
  induction gs with
  | nil => intro k ps _ hmem; exact absurd hmem (by simp)
  | cons kv rest ih =>
    obtain ⟨k₀, ps₀⟩ := kv
    intro k ps hnd hmem
    rw [List.map_cons, List.nodup_cons] at hnd
    cases hmem with
    | head => simp [List.lookup_cons]
    | tail _ htail =>
      have hk : ¬ k = k₀ := by
        intro hkk
        subst hkk
        exact hnd.1 (List.mem_map.mpr ⟨(k, ps), htail, rfl⟩)
      have : (k == k₀) = false := beq_false_of_ne hk
      simp only [List.lookup_cons, this]
      exact ih hnd.2 htail

lemma mem_of_lookup_eq_some {β : Type} :
    ∀ {gs : List (String × β)} {k : String} {ps : β},
      gs.lookup k = some ps → (k, ps) ∈ gs := by
  intro gs
  induction gs with
  | nil => intro k ps h; exact Option.noConfusion h
  | cons kv rest ih =>
    obtain ⟨k₀, ps₀⟩ := kv
    intro k ps h
    by_cases hk : k = k₀
    · subst hk
      simp only [List.lookup_cons, beq_self_eq_true] at h
      cases h
      exact List.mem_cons_self _ _
    · have : (k == k₀) = false := beq_false_of_ne hk
      simp only [List.lookup_cons, this] at h
      exact List.mem_cons_of_mem _ (ih h)

lemma lookup_eq_none_of_not_mem {β : Type} :
    ∀ {gs : List (String × β)} {k : String},
      k ∉ gs.map Prod.fst → gs.lookup k = none := by
  intro gs
  induction gs with
  | nil => intro k _; rfl
  | cons kv rest ih =>
    obtain ⟨k₀, ps₀⟩ := kv
    intro k hk
    simp only [List.map_cons, List.mem_cons, not_or] at hk
    have : (k == k₀) = false := beq_false_of_ne hk.1
    simp only [List.lookup_cons, this]
    exact ih hk.2

/-! ## The group keys follow first-occurrence order of resolved slots -/

lemma foldl_group_keys (slots : SlotTable) (badges : BadgeTable) :
    ∀ (ids : List String) (acc : List (String × List Placed)),
      ((ids.foldl (groupStep slots badges) acc).map Prod.fst) =
        ((ids.filterMap (resolveEntry slots badges)).map Placed.slot).foldl
          (fun a k => if k ∈ a then a else a ++ [k]) (acc.map Prod.fst) := by
  intro ids
  induction ids with
  | nil => intro acc; rfl
  | cons id ids ih =>
    intro acc
    cases hres : resolveEntry slots badges id with
    | none =>
      have hstep : groupStep slots badges acc id = acc := by
        unfold groupStep; rw [hres]
      simp only [List.foldl_cons, List.filterMap_cons, hres, hstep]
      exact ih acc
    | some p =>
      have hstep : groupStep slots badges acc id = insertGroup p.slot p acc := by
        unfold groupStep; rw [hres]
      simp only [List.foldl_cons, List.filterMap_cons, hres, hstep,
        List.map_cons]
      rw [ih (insertGroup p.slot p acc), insertGroup_map_fst]

lemma groupBySlot_keys (slots : SlotTable) (badges : BadgeTable)
    (ids : List String) :
    (groupBySlot slots badges ids).map Prod.fst =
      firstOccur ((ids.filterMap (resolveEntry slots badges)).map Placed.slot) := by
  unfold groupBySlot firstOccur
  rw [foldl_group_keys]
  rfl

/-! ## Decomposition of a flat-map over groups by key lookup -/

lemma flatMap_groups_eq {α : Type} (F : String → List Placed → List α) :
    ∀ (gs : List (String × List Placed)),
      (gs.map Prod.fst).Nodup →
      gs.flatMap (fun kv => F kv.1 kv.2) =
        (gs.map Prod.fst).flatMap (fun k => F k ((gs.lookup k).getD [])) := by
  intro gs
  induction gs with
  | nil => intro _; rfl
  | cons kv rest ih =>
    obtain ⟨k, ps⟩ := kv
    intro hnd
    rw [List.map_cons, List.nodup_cons] at hnd
    rw [List.flatMap_cons, List.map_cons, List.flatMap_cons]
    have hhead : (((k, ps) :: rest).lookup k).getD [] = ps := by
      simp [List.lookup_cons]
    rw [hhead]
    congr 1
    rw [ih hnd.2]
    apply List.flatMap_congr
    intro k' hk'
    have hne : ¬ k' = k := by
      intro h; subst h; exact hnd.1 hk'
    have : (k' == k) = false := beq_false_of_ne hne
    simp only [List.lookup_cons, this]

/-! ## Equation lemmas for `arrangeSlot` -/

lemma arrangeSlot_lookup_none {slots : SlotTable} {k : String}
    (h : slots.lookup k = none) (items : List Placed) :
    arrangeSlot slots k items = ([], []) := by
  unfold arrangeSlot; rw [h]

lemma arrangeSlot_pyramid {slots : SlotTable} {k : String} {box : Box}
    (h : slots.lookup k = some box)
    (hk : k = "safBadges" ∨ k = "foreignBadges") (items : List Placed) :
    arrangeSlot slots k items =
      (pyramidPlace box items,
       if 3 < items.length then
         [k ++ " allows max 3; extra selections ignored."]
       else []) := by
  simp only [arrangeSlot, h]
  rw [if_pos hk]

lemma arrangeSlot_medal {slots : SlotTable} {box : Box}
    (h : slots.lookup "medalsBelowRightPocket" = some box)
    (items : List Placed) :
    arrangeSlot slots "medalsBelowRightPocket" items =
      (medalRowPlace box items, []) := by
  simp only [arrangeSlot, h]
  simp

lemma arrangeSlot_vstack {slots : SlotTable} {box : Box}
    (h : slots.lookup "rightSleeveProficiency" = some box)
    (items : List Placed) :
    arrangeSlot slots "rightSleeveProficiency" items =
      (vstackPlace box items, []) := by
  simp only [arrangeSlot, h]
  simp

lemma arrangeSlot_single {slots : SlotTable} {k : String} {box : Box}
    (h : slots.lookup k = some box)
    (hk : ¬ (k = "safBadges" ∨ k = "foreignBadges"))
    (hk2 : ¬ k = "medalsBelowRightPocket")
    (hk3 : ¬ k = "rightSleeveProficiency")
    (a : Placed) (rest : List Placed) :
    arrangeSlot slots k (a :: rest) =
      ([a],
       if rest.isEmpty then []
       else [k ++ ": multiple selections; only first shown."]) := by
  simp only [arrangeSlot, h]
  rw [if_neg hk, if_neg hk2, if_neg hk3]

lemma arrangeSlot_nil (slots : SlotTable) (k : String) :
    arrangeSlot slots k [] = ([], []) := by
  cases h : slots.lookup k with
  | none => exact arrangeSlot_lookup_none h []
  | some box =>
    simp only [arrangeSlot, h]
    split_ifs with h1 h2 h3 <;>
      simp_all [pyramidPlace, medalRowPlace, vstackPlace]

/-! ## Non-geometry fields survive every arrangement rule -/

lemma pyramidPlace_meta (box : Box) (items : List Placed) :
    ∀ q ∈ pyramidPlace box items, ∃ p ∈ items, SameMeta q p := by
  rcases items with _ | ⟨a, _ | ⟨b, _ | ⟨c, rest⟩⟩⟩
  · intro q hq; simp [pyramidPlace] at hq
  · intro q hq
    simp only [pyramidPlace, List.mem_singleton] at hq
    subst hq
    exact ⟨a, by simp, rfl, rfl, rfl, rfl, rfl, rfl⟩
  · intro q hq
    simp only [pyramidPlace, List.mem_cons, List.mem_singleton,
      List.not_mem_nil, or_false] at hq
    rcases hq with rfl | rfl
    · exact ⟨a, by simp, rfl, rfl, rfl, rfl, rfl, rfl⟩
    · exact ⟨b, by simp, rfl, rfl, rfl, rfl, rfl, rfl⟩
  · intro q hq
    simp only [pyramidPlace, List.mem_cons, List.mem_singleton,
      List.not_mem_nil, or_false] at hq
    rcases hq with rfl | rfl | rfl
    · exact ⟨a, by simp, rfl, rfl, rfl, rfl, rfl, rfl⟩
    · exact ⟨b, by simp, rfl, rfl, rfl, rfl, rfl, rfl⟩
    · exact ⟨c, by simp, rfl, rfl, rfl, rfl, rfl, rfl⟩

lemma medalRowPlace_meta (box : Box) (items : List Placed) :
    ∀ q ∈ medalRowPlace box items, ∃ p ∈ items, SameMeta q p := by
  intro q hq
  simp only [medalRowPlace] at hq
  obtain ⟨i, hi, heq⟩ := List.mem_mapIdx.mp hq
  subst heq
  exact ⟨items[i], List.getElem_mem hi, rfl, rfl, rfl, rfl, rfl, rfl⟩

lemma vstackPlace_meta (box : Box) (items : List Placed) :
    ∀ q ∈ vstackPlace box items, ∃ p ∈ items, SameMeta q p := by
  intro q hq
  simp only [vstackPlace] at hq
  obtain ⟨i, hi, heq⟩ := List.mem_mapIdx.mp hq
  subst heq
  exact ⟨items[i], List.getElem_mem hi, rfl, rfl, rfl, rfl, rfl, rfl⟩

lemma arrangeSlot_meta (slots : SlotTable) (k : String)
    (items : List Placed) :
    ∀ q ∈ (arrangeSlot slots k items).1, ∃ p ∈ items, SameMeta q p := by
  cases h : slots.lookup k with
  | none =>
    rw [arrangeSlot_lookup_none h]
    intro q hq
    simp at hq
  | some box =>
    by_cases h1 : k = "safBadges" ∨ k = "foreignBadges"
    · rw [arrangeSlot_pyramid h h1]
      exact pyramidPlace_meta box items
    · by_cases h2 : k = "medalsBelowRightPocket"
      · subst h2
        rw [arrangeSlot_medal h]
        exact medalRowPlace_meta box items
      · by_cases h3 : k = "rightSleeveProficiency"
        · subst h3
          rw [arrangeSlot_vstack h]
          exact vstackPlace_meta box items
        · cases items with
          | nil =>
            rw [arrangeSlot_nil]
            intro q hq
            simp at hq
          | cons a rest =>
            rw [arrangeSlot_single h h1 h2 h3]
            intro q hq
            rw [List.mem_singleton] at hq
            refine ⟨a, List.mem_cons_self _ _, ?_⟩
            rw [hq]
            exact ⟨rfl, rfl, rfl, rfl, rfl, rfl⟩

lemma arrangeSlot_slot_eq {slots : SlotTable} {k : String}
    {items : List Placed} (hps : ∀ p ∈ items, p.slot = k) :
    ∀ q ∈ (arrangeSlot slots k items).1, q.slot = k := by
  intro q hq
  obtain ⟨p, hp, hmeta⟩ := arrangeSlot_meta slots k items q hq
  rw [hmeta.2.2.1]
  exact hps p hp

/-! ## Decomposition of `computeLayout` by slot -/

lemma routedTo_eq_getD (slots : SlotTable) (badges : BadgeTable)
    (ids : List String) (k : String) :
    routedTo slots badges ids k =
      ((groupBySlot slots badges ids).lookup k).getD [] := by
  unfold routedTo
  cases (groupBySlot slots badges ids).lookup k <;> rfl

lemma mem_routedTo {slots : SlotTable} {badges : BadgeTable}
    {ids : List String} {k : String} {p : Placed}
    (h : p ∈ routedTo slots badges ids k) :
    p.slot = k ∧ resolveEntry slots badges p.id = some p := by
  unfold routedTo at h
  cases hlk : (groupBySlot slots badges ids).lookup k with
  | none => rw [hlk] at h; exact absurd h (by simp)
  | some ps =>
    rw [hlk] at h
    have hmem := mem_of_lookup_eq_some hlk
    exact (groupBySlot_good slots badges ids).2.2 (k, ps) hmem p h

lemma routedTo_lookup_box {slots : SlotTable} {badges : BadgeTable}
    {ids : List String} {k : String}
    (hne : routedTo slots badges ids k ≠ []) :
    ∃ box, slots.lookup k = some box := by
  cases hr : routedTo slots badges ids k with
  | nil => exact absurd hr hne
  | cons p rest =>
    have hp : p ∈ routedTo slots badges ids k := by rw [hr]; simp
    obtain ⟨hslot, hres⟩ := mem_routedTo hp
    refine ⟨⟨p.x, p.y, p.w, p.h, p.z⟩, ?_⟩
    rw [← hslot]
    exact resolveEntry_lookup_slot hres

lemma flatMap_nil_fun {α β : Type} (l : List α) :
    (l.flatMap fun _ => ([] : List β)) = [] := by
  induction l with
  | nil => rfl
  | cons a l ih => rw [List.flatMap_cons, List.nil_append, ih]

lemma flatMap_ite_lookup {α : Type} (sk : String) (G : List Placed → List α)
    (hG : G [] = []) :
    ∀ gs : List (String × List Placed), (gs.map Prod.fst).Nodup →
      (gs.flatMap fun kv => if kv.1 = sk then G kv.2 else []) =
        G ((gs.lookup sk).getD []) := by
  intro gs
  induction gs with
  | nil => intro _; simpa using hG.symm
  | cons kv rest ih =>
    obtain ⟨k, ps⟩ := kv
    intro hnd
    rw [List.map_cons, List.nodup_cons] at hnd
    rw [List.flatMap_cons]
    by_cases hk : k = sk
    · subst hk
      have htail : (rest.flatMap fun kv => if kv.1 = k then G kv.2 else []) = [] := by
        rw [List.flatMap_congr (g := fun _ => []), flatMap_nil_fun]
        intro kv hkv
        have : ¬ kv.1 = k := by
          intro hh
          exact hnd.1 (hh ▸ List.mem_map.mpr ⟨kv, hkv, rfl⟩)
        simp [this]
      rw [htail]
      simp [List.lookup_cons]
    · have : (sk == k) = false := beq_false_of_ne fun h => hk h.symm
      simp only [if_neg hk, List.nil_append, List.lookup_cons, this]
      exact ih hnd.2

lemma computeLayout_warnings_eq (slots : SlotTable) (badges : BadgeTable)
    (ids : List String) :
    (computeLayout slots badges ids).2 =
      ((groupBySlot slots badges ids).map Prod.fst).flatMap
        (fun k => slotWarnings slots badges ids k) := by
  unfold computeLayout
  dsimp only
  have hnd := (groupBySlot_good slots badges ids).1
  rw [flatMap_groups_eq (fun k ps => (arrangeSlot slots k ps).2) _ hnd]
  apply List.flatMap_congr
  intro k _
  unfold slotWarnings
  rw [routedTo_eq_getD]

lemma placementsFor_eq (slots : SlotTable) (badges : BadgeTable)
    (ids : List String) (sk : String) :
    placementsFor slots badges ids sk =
      (arrangeSlot slots sk (routedTo slots badges ids sk)).1 := by
  unfold placementsFor computeLayout
  dsimp only
  obtain ⟨hnd, _, hprop⟩ := groupBySlot_good slots badges ids
  rw [List.filter_flatMap]
  have hstep :
      ((groupBySlot slots badges ids).flatMap fun kv =>
        List.filter (fun p => p.slot = sk)
          ((arrangeSlot slots kv.1 kv.2).1)) =
      ((groupBySlot slots badges ids).flatMap fun kv =>
        if kv.1 = sk then (arrangeSlot slots sk kv.2).1 else []) := by
    apply List.flatMap_congr
    intro kv hkv
    have hall : ∀ q ∈ (arrangeSlot slots kv.1 kv.2).1, q.slot = kv.1 :=
      arrangeSlot_slot_eq fun p hp => (hprop kv hkv p hp).1
    by_cases hk : kv.1 = sk
    · rw [if_pos hk, ← hk]
      apply List.filter_eq_self.mpr
      intro q hq
      simp [hall q hq, hk]
    · rw [if_neg hk]
      apply List.filter_eq_nil_iff.mpr
      intro q hq
      simp [hall q hq, hk]
  rw [hstep,
    flatMap_ite_lookup sk (fun ps => (arrangeSlot slots sk ps).1)
      (by show (arrangeSlot slots sk []).1 = []
          rw [arrangeSlot_nil]) _ hnd,
    ← routedTo_eq_getD]

/-! ## Non-overlap of placements within one slot -/

lemma not_overlap_of_le_x {p q : Placed} (h : p.x + p.w ≤ q.x) :
    ¬ Overlap p q := by
  intro hov
  unfold Overlap at hov
  exact absurd hov.2.1 (not_lt.mpr h)

lemma not_overlap_of_le_y {p q : Placed} (h : p.y + p.h ≤ q.y) :
    ¬ Overlap p q := by
  intro hov
  unfold Overlap at hov
  exact absurd hov.2.2.2 (not_lt.mpr h)

lemma pyramidPlace_pairwise (box : Box) (items : List Placed) :
    (pyramidPlace box items).Pairwise fun p q => ¬ Overlap p q := by
  rcases items with _ | ⟨a, _ | ⟨b, _ | ⟨c, rest⟩⟩⟩
  · simp [pyramidPlace]
  · simp [pyramidPlace]
  · simp only [pyramidPlace]
    refine List.pairwise_cons.mpr ⟨?_, by simp⟩
    intro q hq
    rw [List.mem_singleton] at hq
    subst hq
    apply not_overlap_of_le_x
    dsimp only
    linarith
  · simp only [pyramidPlace]
    refine List.pairwise_cons.mpr ⟨?_, ?_⟩
    · intro q hq
      simp only [List.mem_cons, List.mem_singleton, List.not_mem_nil,
        or_false] at hq
      rcases hq with rfl | rfl
      · apply not_overlap_of_le_y
        dsimp only
        linarith
      · apply not_overlap_of_le_y
        dsimp only
        linarith
    · refine List.pairwise_cons.mpr ⟨?_, by simp⟩
      intro q hq
      rw [List.mem_singleton] at hq
      subst hq
      apply not_overlap_of_le_x
      dsimp only
      linarith

lemma medalRowPlace_pairwise (box : Box) (items : List Placed) :
    (medalRowPlace box items).Pairwise fun p q => ¬ Overlap p q := by
  rw [List.pairwise_iff_getElem]
  intro i j hi hj hij
  simp only [medalRowPlace, List.getElem_mapIdx]
  apply not_overlap_of_le_x
  dsimp only
  have hcast : (i : ℚ) + 1 ≤ (j : ℚ) := by exact_mod_cast hij
  linarith

lemma vstackPlace_pairwise (box : Box) (items : List Placed) :
    (vstackPlace box items).Pairwise fun p q => ¬ Overlap p q := by
  rw [List.pairwise_iff_getElem]
  intro i j hi hj hij
  simp only [vstackPlace, List.getElem_mapIdx]
  apply not_overlap_of_le_y
  dsimp only
  have hcast : (i : ℚ) + 1 ≤ (j : ℚ) := by exact_mod_cast hij
  linarith

lemma arrangeSlot_pairwise (slots : SlotTable) (k : String)
    (items : List Placed) :
    ((arrangeSlot slots k items).1).Pairwise fun p q => ¬ Overlap p q := by
  cases h : slots.lookup k with
  | none => rw [arrangeSlot_lookup_none h]; simp
  | some box =>
    by_cases h1 : k = "safBadges" ∨ k = "foreignBadges"
    · rw [arrangeSlot_pyramid h h1]
      exact pyramidPlace_pairwise box items
    · by_cases h2 : k = "medalsBelowRightPocket"
      · subst h2
        rw [arrangeSlot_medal h]
        exact medalRowPlace_pairwise box items
      · by_cases h3 : k = "rightSleeveProficiency"
        · subst h3
          rw [arrangeSlot_vstack h]
          exact vstackPlace_pairwise box items
        · cases items with
          | nil => rw [arrangeSlot_nil]; simp
          | cons a rest =>
            rw [arrangeSlot_single h h1 h2 h3]
            simp

/-! ## Warning-string shape lemmas -/

lemma string_append_right_cancel {a b s : String} (h : a ++ s = b ++ s) :
    a = b := by
  apply String.ext
  have hd := congrArg String.data h
  rw [String.data_append, String.data_append] at hd
  exact List.append_cancel_right hd

lemma pyramid_single_warning_ne (a b : String) :
    a ++ " allows max 3; extra selections ignored." ≠
    b ++ ": multiple selections; only first shown." := by
  intro h
  have hd := congrArg String.data h
  rw [String.data_append, String.data_append] at hd
  have h2 := (List.append_inj' hd (by decide)).2
  exact absurd h2 (by decide)

lemma slotWarnings_mem {slots : SlotTable} {badges : BadgeTable}
    {ids : List String} {w : String} {k : String}
    (h : w ∈ slotWarnings slots badges ids k) :
    (w = k ++ " allows max 3; extra selections ignored." ∧
      (k = "safBadges" ∨ k = "foreignBadges") ∧
      3 < (routedTo slots badges ids k).length) ∨
    (w = k ++ ": multiple selections; only first shown." ∧
      ¬ (k = "safBadges" ∨ k = "foreignBadges") ∧
      ¬ k = "medalsBelowRightPocket" ∧ ¬ k = "rightSleeveProficiency" ∧
      1 < (routedTo slots badges ids k).length) := by
  unfold slotWarnings at h
  cases hlk : slots.lookup k with
  | none => rw [arrangeSlot_lookup_none hlk] at h; exact absurd h (by simp)
  | some box =>
    by_cases h1 : k = "safBadges" ∨ k = "foreignBadges"
    · rw [arrangeSlot_pyramid hlk h1] at h
      by_cases hlen : 3 < (routedTo slots badges ids k).length
      · rw [if_pos hlen] at h
        rw [List.mem_singleton] at h
        exact Or.inl ⟨h, h1, hlen⟩
      · rw [if_neg hlen] at h
        exact absurd h (by simp)
    · by_cases h2 : k = "medalsBelowRightPocket"
      · subst h2
        rw [arrangeSlot_medal hlk] at h
        exact absurd h (by simp)
      · by_cases h3 : k = "rightSleeveProficiency"
        · subst h3
          rw [arrangeSlot_vstack hlk] at h
          exact absurd h (by simp)
        · cases hr : routedTo slots badges ids k with
          | nil =>
            rw [hr, arrangeSlot_nil] at h
            exact absurd h (by simp)
          | cons a rest =>
            rw [hr, arrangeSlot_single hlk h1 h2 h3] at h
            cases hre : rest.isEmpty with
            | true => rw [if_pos (by rw [hre])] at h; exact absurd h (by simp)
            | false =>
              rw [if_neg (by rw [hre]; exact Bool.false_ne_true)] at h
              rw [List.mem_singleton] at h
              refine Or.inr ⟨h, h1, h2, h3, ?_⟩
              simp only [List.length_cons]
              have : rest ≠ [] := by
                intro hh; rw [hh] at hre; exact Bool.noConfusion hre
              have := List.length_pos.mpr this
              omega

lemma mem_warnings_of_mem_slotWarnings {slots : SlotTable}
    {badges : BadgeTable} {ids : List String} {k : String} {w : String}
    (hocc : routedTo slots badges ids k ≠ [])
    (hw : w ∈ slotWarnings slots badges ids k) :
    w ∈ (computeLayout slots badges ids).2 := by
  rw [computeLayout_warnings_eq]
  apply List.mem_flatMap.mpr
  refine ⟨k, ?_, hw⟩
  rw [routedTo_eq_getD] at hocc
  cases hlk : (groupBySlot slots badges ids).lookup k with
  | none => rw [hlk] at hocc; exact absurd rfl hocc
  | some ps =>
    exact List.mem_map.mpr ⟨(k, ps), mem_of_lookup_eq_some hlk, rfl⟩

lemma mem_warnings_elim {slots : SlotTable} {badges : BadgeTable}
    {ids : List String} {w : String}
    (h : w ∈ (computeLayout slots badges ids).2) :
    ∃ k, w ∈ slotWarnings slots badges ids k := by
  rw [computeLayout_warnings_eq] at h
  obtain ⟨k, _, hw⟩ := List.mem_flatMap.mp h
  exact ⟨k, hw⟩

/-! ## Facts about the text fit estimator -/

lemma floor_max_ten (x : ℚ) : ⌊max 10 x⌋ = max 10 ⌊x⌋ := by
  rw [@Monotone.map_max ℚ ℤ _ _ Int.floor 10 x Int.floor_mono]
  norm_num

lemma ten_le_floor_max_ten (x : ℚ) : 10 ≤ ⌊max 10 x⌋ := by
  rw [floor_max_ten]
  exact le_max_left _ _

lemma measuredWidth_ne_zero (measure : String → ℚ) {label : String}
    (hlabel : label ≠ "") :
    measuredWidth measure label ≠ 0 := by
  unfold measuredWidth
  by_cases h0 : measure label = 0
  · rw [if_pos h0]
    have hdata : label.data ≠ [] := by
      intro hd
      exact hlabel (String.ext (by rw [hd]))
    have hlen : 0 < label.length := List.length_pos.mpr hdata
    have : (0 : ℚ) < (label.length : ℚ) := by exact_mod_cast hlen
    positivity
  · rw [if_neg h0]
    exact h0

/-- Claim C2, counterexample: with the oracle available, a non-empty
label and positive box dimensions (boxW = 100, boxH = 10), the result
is 10, which exceeds `⌊boxH * maxHeightRatio⌋ = ⌊7⌋ = 7`: the claimed
upper bound `fitFontSize ≤ ⌊boxH * maxHeightRatio⌋` is false. -/
theorem fitFontSize_height_bound_counterexample :
    ("A" : String) ≠ "" ∧ (0 : ℚ) < 100 ∧ (0 : ℚ) < 10 ∧
    fitFontSize (fun _ => 50) "A" 100 10 8 (7 / 10) = 10 ∧
    ⌊(10 : ℚ) * (7 / 10)⌋ = 7 ∧
    ¬ (fitFontSize (fun _ => 50) "A" 100 10 8 (7 / 10) ≤
        ⌊(10 : ℚ) * (7 / 10)⌋) := by
  refine ⟨by decide, by norm_num, by norm_num, ?_, by norm_num, ?_⟩
  · norm_num [fitFontSize, measuredWidth]
  · norm_num [fitFontSize, measuredWidth]

/-- Claim C2 (amended): for every non-empty label and any box
dimensions, with the oracle available and the default padding 8 and
ratio 0.7, `fitFontSize` returns at least 10, at most
`⌊max 10 (boxH * 0.7)⌋` (the height bound clamped below by the minimum
font size — not plain `⌊boxH * 0.7⌋`), and exactly
`⌊max(10, min(heightBoundSize, widthBoundSize))⌋`. -/
theorem fitFontSize_bounds (measure : String → ℚ) (label : String)
    (boxW boxH : ℚ) (hlabel : label ≠ "") :
    10 ≤ fitFontSize measure label boxW boxH 8 (7 / 10) ∧
    fitFontSize measure label boxW boxH 8 (7 / 10) ≤
      ⌊max 10 (boxH * (7 / 10))⌋ ∧
    fitFontSize measure label boxW boxH 8 (7 / 10) =
      ⌊max 10 (min (max 10 (boxH * (7 / 10)))
        ((max 10 (boxW - 8 * 2) / measuredWidth measure label) * 100))⌋ := by
  have hmw := measuredWidth_ne_zero measure hlabel
  have hval : fitFontSize measure label boxW boxH 8 (7 / 10) =
      max 10 ⌊min (max 10 (boxH * (7 / 10)))
        ((max 10 (boxW - 8 * 2) / measuredWidth measure label) * 100)⌋ := by
    unfold fitFontSize
    rw [if_neg hmw]
  refine ⟨?_, ?_, ?_⟩
  · rw [hval]; exact le_max_left _ _
  · rw [hval]
    apply max_le
    · exact ten_le_floor_max_ten _
    · exact Int.floor_mono (min_le_left _ _)
  · rw [hval, floor_max_ten]

/-- Witness for `fitFontSize_bounds` at label "A", boxW 100, boxH 10,
oracle measuring 50. -/
theorem fitFontSize_bounds_witness :
    10 ≤ fitFontSize (fun _ => 50) "A" 100 10 8 (7 / 10) ∧
    fitFontSize (fun _ => 50) "A" 100 10 8 (7 / 10) ≤
      ⌊max 10 ((10 : ℚ) * (7 / 10))⌋ ∧
    fitFontSize (fun _ => 50) "A" 100 10 8 (7 / 10) =
      ⌊max 10 (min (max 10 ((10 : ℚ) * (7 / 10)))
        ((max 10 ((100 : ℚ) - 8 * 2) / measuredWidth (fun _ => 50) "A") * 100))⌋ :=
  fitFontSize_bounds (fun _ => 50) "A" 100 10 (by decide)

/-- Claim C10: `fitFontSize` is total for every label.  When the oracle
measures width 0 the fallback estimate `100 * 0.6 * label.length` is
used, and for the empty label — where the fallback is also 0 and the
width-bound division is degenerate (JavaScript `availableW / 0 = ∞`) —
the function still returns `⌊max 10 (boxH * maxHeightRatio)⌋` rather
than failing. -/
theorem fitFontSize_empty_label_total (measure : String → ℚ)
    (boxW boxH padding ratio : ℚ) :
    (∀ lab, measure lab = 0 →
      measuredWidth measure lab = 100 * (6 / 10) * (lab.length : ℚ)) ∧
    (measure "" = 0 →
      fitFontSize measure "" boxW boxH padding ratio =
        ⌊max 10 (boxH * ratio)⌋) := by
  constructor
  · intro lab h
    unfold measuredWidth
    rw [if_pos h]
  · intro h0
    have hmz : measuredWidth measure "" = 0 := by
      unfold measuredWidth
      rw [if_pos h0]
      norm_num
    unfold fitFontSize
    rw [if_pos hmz]
    exact max_eq_right (ten_le_floor_max_ten _)

/-- Witness for `fitFontSize_empty_label_total` with the zero oracle,
boxW 100, boxH 50: the result is `⌊max 10 35⌋ = 35`. -/
theorem fitFontSize_empty_label_total_witness :
    fitFontSize (fun _ => (0 : ℚ)) "" 100 50 8 (7 / 10) =
      ⌊max 10 ((50 : ℚ) * (7 / 10))⌋ :=
  (fitFontSize_empty_label_total (fun _ => (0 : ℚ)) 100 50 8 (7 / 10)).2 rfl

/-! ## Per-slot warning equations and placement counts -/

lemma slotWarnings_pyramid_eq {slots : SlotTable} {badges : BadgeTable}
    {ids : List String} {k : String}
    (hk : k = "safBadges" ∨ k = "foreignBadges") :
    slotWarnings slots badges ids k =
      if 3 < (routedTo slots badges ids k).length
      then [k ++ " allows max 3; extra selections ignored."] else [] := by
  unfold slotWarnings
  cases hr : routedTo slots badges ids k with
  | nil => rw [arrangeSlot_nil]; simp
  | cons a rest =>
    obtain ⟨box, hbox⟩ :=
      routedTo_lookup_box (by rw [hr]; exact List.cons_ne_nil a rest)
    rw [arrangeSlot_pyramid hbox hk]

lemma slotWarnings_single_eq {slots : SlotTable} {badges : BadgeTable}
    {ids : List String} {k : String}
    (h1 : ¬ (k = "safBadges" ∨ k = "foreignBadges"))
    (h2 : ¬ k = "medalsBelowRightPocket")
    (h3 : ¬ k = "rightSleeveProficiency") :
    slotWarnings slots badges ids k =
      if 1 < (routedTo slots badges ids k).length
      then [k ++ ": multiple selections; only first shown."] else [] := by
  unfold slotWarnings
  cases hr : routedTo slots badges ids k with
  | nil => rw [arrangeSlot_nil]; simp
  | cons a rest =>
    obtain ⟨box, hbox⟩ :=
      routedTo_lookup_box (by rw [hr]; exact List.cons_ne_nil a rest)
    rw [arrangeSlot_single hbox h1 h2 h3]
    cases rest with
    | nil => simp
    | cons b t =>
      rw [if_neg (by simp), if_pos (by simp only [List.length_cons]; omega)]

lemma slotWarnings_medal (slots : SlotTable) (badges : BadgeTable)
    (ids : List String) :
    slotWarnings slots badges ids "medalsBelowRightPocket" = [] := by
  unfold slotWarnings
  cases hr : routedTo slots badges ids "medalsBelowRightPocket" with
  | nil => rw [arrangeSlot_nil]
  | cons a rest =>
    obtain ⟨box, hbox⟩ :=
      routedTo_lookup_box (by rw [hr]; exact List.cons_ne_nil a rest)
    rw [arrangeSlot_medal hbox]

lemma slotWarnings_vstack (slots : SlotTable) (badges : BadgeTable)
    (ids : List String) :
    slotWarnings slots badges ids "rightSleeveProficiency" = [] := by
  unfold slotWarnings
  cases hr : routedTo slots badges ids "rightSleeveProficiency" with
  | nil => rw [arrangeSlot_nil]
  | cons a rest =>
    obtain ⟨box, hbox⟩ :=
      routedTo_lookup_box (by rw [hr]; exact List.cons_ne_nil a rest)
    rw [arrangeSlot_vstack hbox]

lemma pyramidPlace_length_le (box : Box) (items : List Placed) :
    (pyramidPlace box items).length ≤ 3 := by
  rcases items with _ | ⟨a, _ | ⟨b, _ | ⟨c, rest⟩⟩⟩ <;> simp [pyramidPlace]

lemma pyramidPlace_map_id (box : Box) (items : List Placed) :
    (pyramidPlace box items).map Placed.id =
      ((items.take 3).map Placed.id) := by
  rcases items with _ | ⟨a, _ | ⟨b, _ | ⟨c, rest⟩⟩⟩ <;>
    simp [pyramidPlace]

lemma medalRowPlace_length (box : Box) (items : List Placed) :
    (medalRowPlace box items).length = items.length := by
  simp [medalRowPlace]

lemma vstackPlace_length (box : Box) (items : List Placed) :
    (vstackPlace box items).length = items.length := by
  simp [vstackPlace]

lemma medalRowPlace_pairwise_ne (box : Box) (items : List Placed) :
    (medalRowPlace box items).Pairwise (· ≠ ·) := by
  rw [List.pairwise_iff_getElem]
  intro i j hi hj hij
  simp only [medalRowPlace, List.getElem_mapIdx]
  intro heq
  have hx := congrArg Placed.x heq
  dsimp only at hx
  have : (i : ℚ) = (j : ℚ) := by linarith
  have : i = j := by exact_mod_cast this
  omega

lemma vstackPlace_pairwise_ne (box : Box) (items : List Placed) :
    (vstackPlace box items).Pairwise (· ≠ ·) := by
  rw [List.pairwise_iff_getElem]
  intro i j hi hj hij
  simp only [vstackPlace, List.getElem_mapIdx]
  intro heq
  have hy := congrArg Placed.y heq
  dsimp only at hy
  have : (i : ℚ) = (j : ℚ) := by linarith
  have : i = j := by exact_mod_cast this
  omega

/-! ## Pairwise non-overlap across all groups -/

lemma flatMap_arrange_pairwise (slots : SlotTable) :
    ∀ gs : List (String × List Placed),
      (gs.map Prod.fst).Nodup →
      (∀ kv ∈ gs, ∀ p ∈ kv.2, p.slot = kv.1) →
      (gs.flatMap fun kv => (arrangeSlot slots kv.1 kv.2).1).Pairwise
        (fun p q => p.slot = q.slot → ¬ Overlap p q) := by
  intro gs
  induction gs with
  | nil => intro _ _; simp
  | cons kv rest ih =>
    intro hnd hprop
    rw [List.map_cons, List.nodup_cons] at hnd
    rw [List.flatMap_cons, List.pairwise_append]
    refine ⟨?_, ih hnd.2 (fun kv' h => hprop kv' (List.mem_cons_of_mem _ h)), ?_⟩
    · have himp : ∀ {p q : Placed},
          ¬ Overlap p q → (p.slot = q.slot → ¬ Overlap p q) :=
        fun h _ => h
      exact List.Pairwise.imp himp (arrangeSlot_pairwise slots kv.1 kv.2)
    intro x hx y hy
    have hxslot : x.slot = kv.1 :=
      arrangeSlot_slot_eq (hprop kv (List.mem_cons_self _ _)) x hx
    obtain ⟨kv', hkv', hy'⟩ := List.mem_flatMap.mp hy
    have hyslot : y.slot = kv'.1 :=
      arrangeSlot_slot_eq (hprop kv' (List.mem_cons_of_mem _ hkv')) y hy'
    intro heq
    exfalso
    apply hnd.1
    have hkeys : kv.1 = kv'.1 := by rw [← hxslot, heq, hyslot]
    rw [hkeys]
    exact List.mem_map.mpr ⟨kv', hkv', rfl⟩

/-! ## Grouping a constant selection -/

lemma resolveEntry_eq_mk {slots : SlotTable} {badges : BadgeTable}
    {i : String} {spec : Badge} {box : Box}
    (hb : badges.lookup i = some spec)
    (hs : slots.lookup spec.slot = some box) :
    resolveEntry slots badges i =
      some { id := i, label := spec.label, slot := spec.slot,
             x := box.x, y := box.y, w := box.w, h := box.h, z := box.z,
             color := spec.color, asset := spec.asset } := by
  simp only [resolveEntry, hb, hs]

lemma foldl_groupStep_replicate {slots : SlotTable} {badges : BadgeTable}
    {i : String} {e : Placed}
    (hres : resolveEntry slots badges i = some e) :
    ∀ (n : ℕ) (es : List Placed),
      List.foldl (groupStep slots badges) [(e.slot, es)]
          (List.replicate n i) =
        [(e.slot, es ++ List.replicate n e)] := by
  intro n
  induction n with
  | zero => intro es; simp
  | succ n ih =>
    intro es
    rw [List.replicate_succ, List.foldl_cons]
    have hstep : groupStep slots badges [(e.slot, es)] i =
        [(e.slot, es ++ [e])] := by
      unfold groupStep
      rw [hres]
      show insertGroup e.slot e [(e.slot, es)] = [(e.slot, es ++ [e])]
      exact insertGroup_cons_pos e.slot e es []
    rw [hstep, ih (es ++ [e]), List.append_assoc, List.replicate_succ]
    rfl

lemma groupBySlot_replicate {slots : SlotTable} {badges : BadgeTable}
    {i : String} {e : Placed}
    (hres : resolveEntry slots badges i = some e) (n : ℕ) :
    groupBySlot slots badges (List.replicate (n + 1) i) =
      [(e.slot, List.replicate (n + 1) e)] := by
  unfold groupBySlot
  rw [List.replicate_succ, List.foldl_cons]
  have hstep : groupStep slots badges [] i = [(e.slot, [e])] := by
    unfold groupStep
    rw [hres]
    show insertGroup e.slot e [] = [(e.slot, [e])]
    rfl
  rw [hstep, foldl_groupStep_replicate hres n [e]]
  rw [List.replicate_succ]
  rfl

/-! ## Concrete demonstration tables

The repository loads its tables from `slots.json` / `badges.json`; the
tables below are small concrete instances used to instantiate the
parametric theorems on explicit inputs. -/

def demoSlots : SlotTable :=
  [("rankLeftSleeve", ⟨60, 540, 140, 60, 10⟩),
   ("safBadges", ⟨590, 520, 180, 170, 12⟩),
   ("foreignBadges", ⟨240, 520, 180, 170, 12⟩),
   ("medalsBelowRightPocket", ⟨560, 430, 240, 60, 11⟩),
   ("rightSleeveProficiency", ⟨800, 540, 140, 200, 10⟩)]

def demoBadges : BadgeTable :=
  [("r1", ⟨"SGT", "rankLeftSleeve", "#333", none⟩),
   ("s1", ⟨"S1", "safBadges", "#a00", none⟩),
   ("s2", ⟨"S2", "safBadges", "#b00", none⟩),
   ("s3", ⟨"S3", "safBadges", "#c00", none⟩),
   ("s4", ⟨"S4", "safBadges", "#d00", none⟩),
   ("m1", ⟨"M1", "medalsBelowRightPocket", "#07c", none⟩),
   ("p1", ⟨"P1", "rightSleeveProficiency", "#0a5", none⟩),
   ("u1", ⟨"U1", "unknownSlot", "#000", none⟩)]

/-- The rank entry that `resolveEntry` produces for `"r1"` over the
demonstration tables. -/
def demoRankEntry : Placed :=
  ⟨"r1", "SGT", "rankLeftSleeve", 60, 540, 140, 60, 10, "#333", none⟩

/-! ## Claim theorems -/

/-- Claim C1, counterexample: with four resolvable items routed to
`safBadges`, the code emits `"safBadges allows max 3; extra selections
ignored."` — without the colon after the slot identifier — so the
claimed warning string `"safBadges: allows max 3; extra selections
ignored."` is never present. -/
theorem pyramid_warning_colon_counterexample :
    3 < (routedTo demoSlots demoBadges ["s1", "s2", "s3", "s4"]
          "safBadges").length ∧
    "safBadges: allows max 3; extra selections ignored." ∉
      (computeLayout demoSlots demoBadges ["s1", "s2", "s3", "s4"]).2 ∧
    (computeLayout demoSlots demoBadges ["s1", "s2", "s3", "s4"]).2 =
      ["safBadges allows max 3; extra selections ignored."] := by
  refine ⟨by decide, by decide, by decide⟩

/-- Claim C1 (amended): for every selection and every pyramid slot
(`safBadges`, `foreignBadges`), at most 3 placements are produced for
that slot, the placed items are exactly the first 3 routed items in
selection order, and the warning
`"<slot> allows max 3; extra selections ignored."` (no colon after the
slot identifier) is present in the returned warnings iff more than 3
resolvable items were routed to the slot. -/
theorem pyramid_rule (slots : SlotTable) (badges : BadgeTable)
    (ids : List String) (k : String)
    (hk : k = "safBadges" ∨ k = "foreignBadges") :
    (placementsFor slots badges ids k).length ≤ 3 ∧
    (placementsFor slots badges ids k).map Placed.id =
      ((routedTo slots badges ids k).take 3).map Placed.id ∧
    ((k ++ " allows max 3; extra selections ignored.") ∈
        (computeLayout slots badges ids).2 ↔
      3 < (routedTo slots badges ids k).length) := by
  refine ⟨?_, ?_, ?_, ?_⟩
  · rw [placementsFor_eq]
    cases hr : routedTo slots badges ids k with
    | nil => rw [arrangeSlot_nil]; simp
    | cons a rest =>
      obtain ⟨box, hbox⟩ :=
        routedTo_lookup_box (by rw [hr]; exact List.cons_ne_nil a rest)
      rw [arrangeSlot_pyramid hbox hk]
      exact pyramidPlace_length_le box (a :: rest)
  · rw [placementsFor_eq]
    cases hr : routedTo slots badges ids k with
    | nil => rw [arrangeSlot_nil]; simp
    | cons a rest =>
      obtain ⟨box, hbox⟩ :=
        routedTo_lookup_box (by rw [hr]; exact List.cons_ne_nil a rest)
      rw [arrangeSlot_pyramid hbox hk]
      exact pyramidPlace_map_id box (a :: rest)
  · intro hmem
    obtain ⟨kp, hw⟩ := mem_warnings_elim hmem
    rcases slotWarnings_mem hw with ⟨heq, _, hlen⟩ | ⟨heq, _, _, _, _⟩
    · have hkk : k = kp := string_append_right_cancel heq
      rw [hkk]
      exact hlen
    · exact absurd heq (pyramid_single_warning_ne k kp)
  · intro hlen
    have hocc : routedTo slots badges ids k ≠ [] := by
      intro hnil
      rw [hnil] at hlen
      simp at hlen
    apply mem_warnings_of_mem_slotWarnings hocc
    rw [slotWarnings_pyramid_eq hk, if_pos hlen]
    exact List.mem_singleton.mpr rfl

/-- Witness for `pyramid_rule`: four SAF badges over the demonstration
tables. -/
theorem pyramid_rule_witness :
    (placementsFor demoSlots demoBadges ["s1", "s2", "s3", "s4"]
        "safBadges").length ≤ 3 ∧
    (placementsFor demoSlots demoBadges ["s1", "s2", "s3", "s4"]
        "safBadges").map Placed.id =
      ((routedTo demoSlots demoBadges ["s1", "s2", "s3", "s4"]
          "safBadges").take 3).map Placed.id ∧
    (("safBadges" ++ " allows max 3; extra selections ignored.") ∈
        (computeLayout demoSlots demoBadges ["s1", "s2", "s3", "s4"]).2 ↔
      3 < (routedTo demoSlots demoBadges ["s1", "s2", "s3", "s4"]
            "safBadges").length) :=
  pyramid_rule demoSlots demoBadges ["s1", "s2", "s3", "s4"] "safBadges"
    (Or.inl rfl)

/-- Claim C3: for every selection and every slot under the
single-occupancy rule, when the routed group is `a :: rest` exactly the
placement `[a]` is produced, `a` carries the slot's full box geometry
from the slot table, and the warning
`"<slot>: multiple selections; only first shown."` is present iff more
than one item resolved to the slot (`rest ≠ []`). -/
theorem single_occupancy_rule (slots : SlotTable) (badges : BadgeTable)
    (ids : List String) (k : String)
    (h1 : ¬ (k = "safBadges" ∨ k = "foreignBadges"))
    (h2 : ¬ k = "medalsBelowRightPocket")
    (h3 : ¬ k = "rightSleeveProficiency")
    (a : Placed) (rest : List Placed)
    (hr : routedTo slots badges ids k = a :: rest) :
    placementsFor slots badges ids k = [a] ∧
    slots.lookup k = some ⟨a.x, a.y, a.w, a.h, a.z⟩ ∧
    ((k ++ ": multiple selections; only first shown.") ∈
        (computeLayout slots badges ids).2 ↔ rest ≠ []) := by
  have ha : a ∈ routedTo slots badges ids k := by
    rw [hr]
    exact List.mem_cons_self _ _
  obtain ⟨haslot, hares⟩ := mem_routedTo ha
  have hbox : slots.lookup k = some ⟨a.x, a.y, a.w, a.h, a.z⟩ := by
    rw [← haslot]
    exact resolveEntry_lookup_slot hares
  refine ⟨?_, hbox, ?_, ?_⟩
  · rw [placementsFor_eq, hr, arrangeSlot_single hbox h1 h2 h3]
  · intro hmem
    obtain ⟨kp, hw⟩ := mem_warnings_elim hmem
    rcases slotWarnings_mem hw with ⟨heq, _, _⟩ | ⟨heq, _, _, _, hlen⟩
    · exact absurd heq.symm (pyramid_single_warning_ne kp k)
    · have hkk : k = kp := string_append_right_cancel heq
      rw [← hkk] at hlen
      rw [hr] at hlen
      simp only [List.length_cons] at hlen
      intro hnil
      rw [hnil] at hlen
      simp at hlen
  · intro hne
    have hocc : routedTo slots badges ids k ≠ [] := by
      rw [hr]
      exact List.cons_ne_nil a rest
    apply mem_warnings_of_mem_slotWarnings hocc
    rw [slotWarnings_single_eq h1 h2 h3, hr,
      if_pos (by
        simp only [List.length_cons]
        have := List.length_pos.mpr hne
        omega)]
    exact List.mem_singleton.mpr rfl

/-- Witness for `single_occupancy_rule`: the rank selected twice over
the demonstration tables. -/
theorem single_occupancy_rule_witness :
    placementsFor demoSlots demoBadges ["r1", "r1"] "rankLeftSleeve" =
      [demoRankEntry] ∧
    demoSlots.lookup "rankLeftSleeve" =
      some ⟨demoRankEntry.x, demoRankEntry.y, demoRankEntry.w,
            demoRankEntry.h, demoRankEntry.z⟩ ∧
    (("rankLeftSleeve" ++ ": multiple selections; only first shown.") ∈
        (computeLayout demoSlots demoBadges ["r1", "r1"]).2 ↔
      ([demoRankEntry] : List Placed) ≠ []) :=
  single_occupancy_rule demoSlots demoBadges ["r1", "r1"] "rankLeftSleeve"
    (by decide) (by decide) (by decide) demoRankEntry [demoRankEntry]
    (by decide)

/-- Claim C4: for every selection, the medal-row slot and the
vertical-stack slot produce exactly as many placements as resolvable
items routed to them, and generate no warning regardless of the
count. -/
theorem uncapped_rule (slots : SlotTable) (badges : BadgeTable)
    (ids : List String) (k : String)
    (hk : k = "medalsBelowRightPocket" ∨ k = "rightSleeveProficiency") :
    (placementsFor slots badges ids k).length =
      (routedTo slots badges ids k).length ∧
    slotWarnings slots badges ids k = [] := by
  rcases hk with rfl | rfl
  · refine ⟨?_, slotWarnings_medal slots badges ids⟩
    rw [placementsFor_eq]
    cases hr : routedTo slots badges ids "medalsBelowRightPocket" with
    | nil => rw [arrangeSlot_nil]
    | cons a rest =>
      obtain ⟨box, hbox⟩ :=
        routedTo_lookup_box (by rw [hr]; exact List.cons_ne_nil a rest)
      rw [arrangeSlot_medal hbox]
      exact medalRowPlace_length box (a :: rest)
  · refine ⟨?_, slotWarnings_vstack slots badges ids⟩
    rw [placementsFor_eq]
    cases hr : routedTo slots badges ids "rightSleeveProficiency" with
    | nil => rw [arrangeSlot_nil]
    | cons a rest =>
      obtain ⟨box, hbox⟩ :=
        routedTo_lookup_box (by rw [hr]; exact List.cons_ne_nil a rest)
      rw [arrangeSlot_vstack hbox]
      exact vstackPlace_length box (a :: rest)

/-- Witness for `uncapped_rule`: four copies of a medal over the
demonstration tables — four placements, no warning. -/
theorem uncapped_rule_witness :
    (placementsFor demoSlots demoBadges ["m1", "m1", "m1", "m1"]
        "medalsBelowRightPocket").length =
      (routedTo demoSlots demoBadges ["m1", "m1", "m1", "m1"]
        "medalsBelowRightPocket").length ∧
    slotWarnings demoSlots demoBadges ["m1", "m1", "m1", "m1"]
      "medalsBelowRightPocket" = [] :=
  uncapped_rule demoSlots demoBadges ["m1", "m1", "m1", "m1"]
    "medalsBelowRightPocket" (Or.inl rfl)

/-- Claim C5: an identifier not found in the badge table, or whose item
names a slot not found in the slot table, contributes nothing:
deleting it from the selection leaves `computeLayout`'s entire output
(placements and warnings) unchanged. -/
theorem unresolvable_skipped (slots : SlotTable) (badges : BadgeTable)
    (ids₁ ids₂ : List String) (i : String)
    (h : badges.lookup i = none ∨
      ∃ spec, badges.lookup i = some spec ∧
        slots.lookup spec.slot = none) :
    computeLayout slots badges (ids₁ ++ i :: ids₂) =
      computeLayout slots badges (ids₁ ++ ids₂) := by
  have hres : resolveEntry slots badges i = none := by
    rcases h with h | ⟨spec, hb, hs⟩
    · simp only [resolveEntry, h]
    · simp only [resolveEntry, hb, hs]
  have hstep : groupStep slots badges
      (List.foldl (groupStep slots badges) [] ids₁) i =
      List.foldl (groupStep slots badges) [] ids₁ := by
    unfold groupStep
    rw [hres]
  have hg : groupBySlot slots badges (ids₁ ++ i :: ids₂) =
      groupBySlot slots badges (ids₁ ++ ids₂) := by
    unfold groupBySlot
    rw [List.foldl_append, List.foldl_append, List.foldl_cons, hstep]
  unfold computeLayout
  rw [hg]

/-- Witness for `unresolvable_skipped`: an unknown identifier
`"ghost"`, and the identifier `"u1"` whose slot `"unknownSlot"` is not
in the demonstration slot table. -/
theorem unresolvable_skipped_witness :
    computeLayout demoSlots demoBadges (["r1"] ++ "ghost" :: ["m1"]) =
      computeLayout demoSlots demoBadges (["r1"] ++ ["m1"]) ∧
    computeLayout demoSlots demoBadges ([] ++ "u1" :: ["r1"]) =
      computeLayout demoSlots demoBadges ([] ++ ["r1"]) :=
  ⟨unresolvable_skipped demoSlots demoBadges ["r1"] ["m1"] "ghost"
      (Or.inl (by decide)),
   unresolvable_skipped demoSlots demoBadges [] ["r1"] "u1"
      (Or.inr ⟨⟨"U1", "unknownSlot", "#000", none⟩, by decide, by decide⟩)⟩

/-- Claim C6: no two placements produced for the same slot overlap —
within a slot, tiles are separated horizontally or vertically by the
fixed gaps of the slot's arrangement rule. -/
theorem placements_no_overlap (slots : SlotTable) (badges : BadgeTable)
    (ids : List String) :
    ((computeLayout slots badges ids).1).Pairwise
      (fun p q => p.slot = q.slot → ¬ Overlap p q) := by
  obtain ⟨hnd, _, hprop⟩ := groupBySlot_good slots badges ids
  unfold computeLayout
  dsimp only
  exact flatMap_arrange_pairwise slots _ hnd
    (fun kv hkv p hp => (hprop kv hkv p hp).1)

/-- Claim C7: every placement's slot, label, color and z come verbatim
from the badge-table entry of its id and the slot-table entry of its
slot, at computation time. -/
theorem placement_fields_verbatim (slots : SlotTable)
    (badges : BadgeTable) (ids : List String) (q : Placed)
    (hq : q ∈ (computeLayout slots badges ids).1) :
    ∃ spec box, badges.lookup q.id = some spec ∧
      slots.lookup spec.slot = some box ∧
      q.slot = spec.slot ∧ q.label = spec.label ∧
      q.color = spec.color ∧ q.z = box.z := by
  unfold computeLayout at hq
  dsimp only at hq
  obtain ⟨kv, hkv, hq2⟩ := List.mem_flatMap.mp hq
  obtain ⟨p, hp, hmeta⟩ := arrangeSlot_meta slots kv.1 kv.2 q hq2
  have hres := ((groupBySlot_good slots badges ids).2.2 kv hkv p hp).2
  obtain ⟨spec, box, hb, hs, _, hlabel, hslot, _, _, _, _, hz, hcolor, _⟩ :=
    resolveEntry_some_spec hres
  refine ⟨spec, box, ?_, hs, ?_, ?_, ?_, ?_⟩
  · rw [hmeta.1]; exact hb
  · rw [hmeta.2.2.1, hslot]
  · rw [hmeta.2.1, hlabel]
  · rw [hmeta.2.2.2.2.1, hcolor]
  · rw [hmeta.2.2.2.1, hz]

/-- Witness for `placement_fields_verbatim`: the rank placement of the
selection `["r1"]` over the demonstration tables. -/
theorem placement_fields_verbatim_witness :
    demoRankEntry ∈ (computeLayout demoSlots demoBadges ["r1"]).1 ∧
    ∃ spec box, demoBadges.lookup demoRankEntry.id = some spec ∧
      demoSlots.lookup spec.slot = some box ∧
      demoRankEntry.slot = spec.slot ∧
      demoRankEntry.label = spec.label ∧
      demoRankEntry.color = spec.color ∧ demoRankEntry.z = box.z :=
  ⟨by decide,
   placement_fields_verbatim demoSlots demoBadges ["r1"] demoRankEntry
     (by decide)⟩

/-- Claim C8: the warnings returned by `computeLayout` are exactly the
per-slot warnings concatenated in first-occurrence order of the slot
identifiers of the resolved selection, and each slot contributes at
most one warning. -/
theorem warnings_order (slots : SlotTable) (badges : BadgeTable)
    (ids : List String) :
    (computeLayout slots badges ids).2 =
      (firstOccur ((ids.filterMap (resolveEntry slots badges)).map
          Placed.slot)).flatMap
        (fun k => slotWarnings slots badges ids k) ∧
    ∀ k, (slotWarnings slots badges ids k).length ≤ 1 := by
  constructor
  · rw [computeLayout_warnings_eq, groupBySlot_keys]
  · intro k
    unfold slotWarnings
    cases hlk : slots.lookup k with
    | none => rw [arrangeSlot_lookup_none hlk]; simp
    | some box =>
      by_cases h1 : k = "safBadges" ∨ k = "foreignBadges"
      · rw [arrangeSlot_pyramid hlk h1]
        dsimp only
        split_ifs <;> simp
      · by_cases h2 : k = "medalsBelowRightPocket"
        · subst h2; rw [arrangeSlot_medal hlk]; simp
        · by_cases h3 : k = "rightSleeveProficiency"
          · subst h3; rw [arrangeSlot_vstack hlk]; simp
          · cases hr : routedTo slots badges ids k with
            | nil => rw [arrangeSlot_nil]; simp
            | cons a rest =>
              rw [arrangeSlot_single hlk h1 h2 h3]
              dsimp only
              split_ifs <;> simp

lemma arrangeSlot_uncapped_facts {slots : SlotTable} {k : String}
    {box : Box}
    (hk : k = "medalsBelowRightPocket" ∨ k = "rightSleeveProficiency")
    (hbox : slots.lookup k = some box) (items : List Placed) :
    ((arrangeSlot slots k items).1).length = items.length ∧
    (∀ q ∈ (arrangeSlot slots k items).1, ∃ p ∈ items, SameMeta q p) ∧
    ((arrangeSlot slots k items).1).Pairwise (· ≠ ·) := by
  rcases hk with rfl | rfl
  · rw [arrangeSlot_medal hbox]
    exact ⟨medalRowPlace_length box items, medalRowPlace_meta box items,
      medalRowPlace_pairwise_ne box items⟩
  · rw [arrangeSlot_vstack hbox]
    exact ⟨vstackPlace_length box items, vstackPlace_meta box items,
      vstackPlace_pairwise_ne box items⟩

/-- Claim C9: `computeLayout` does not deduplicate repeated
identifiers — a selection repeating the same identifier `n` times,
routed to an uncapped slot (medal row or vertical stack), yields
exactly `n` pairwise-distinct placements that all share the item's id,
label and color. -/
theorem repeated_ids_uncapped (slots : SlotTable) (badges : BadgeTable)
    (i : String) (spec : Badge) (box : Box) (n : ℕ)
    (hb : badges.lookup i = some spec)
    (hslot : spec.slot = "medalsBelowRightPocket" ∨
      spec.slot = "rightSleeveProficiency")
    (hs : slots.lookup spec.slot = some box) :
    ((computeLayout slots badges (List.replicate n i)).1).length = n ∧
    (∀ p ∈ (computeLayout slots badges (List.replicate n i)).1,
      p.id = i ∧ p.label = spec.label ∧ p.color = spec.color) ∧
    ((computeLayout slots badges (List.replicate n i)).1).Pairwise
      (· ≠ ·) := by
  cases n with
  | zero =>
    have h0 : computeLayout slots badges (List.replicate 0 i) = ([], []) :=
      rfl
    rw [h0]
    exact ⟨rfl, by simp, by simp⟩
  | succ m =>
    have hres := resolveEntry_eq_mk hb hs
    have hg := groupBySlot_replicate hres m
    have hflat : (computeLayout slots badges
        (List.replicate (m + 1) i)).1 =
        (arrangeSlot slots spec.slot (List.replicate (m + 1)
          { id := i, label := spec.label, slot := spec.slot,
            x := box.x, y := box.y, w := box.w, h := box.h, z := box.z,
            color := spec.color, asset := spec.asset })).1 := by
      unfold computeLayout
      dsimp only
      rw [hg, List.flatMap_cons, List.flatMap_nil, List.append_nil]
    rw [hflat]
    obtain ⟨hlen, hmeta, hpw⟩ :=
      arrangeSlot_uncapped_facts hslot hs (List.replicate (m + 1)
        { id := i, label := spec.label, slot := spec.slot,
          x := box.x, y := box.y, w := box.w, h := box.h, z := box.z,
          color := spec.color, asset := spec.asset })
    refine ⟨by rw [hlen, List.length_replicate], ?_, hpw⟩
    intro p hp
    obtain ⟨e, he, hm⟩ := hmeta p hp
    have heq := (List.mem_replicate.mp he).2
    subst heq
    exact ⟨hm.1, hm.2.1, hm.2.2.2.2.1⟩

/-- Witness for `repeated_ids_uncapped`: the medal `"m1"` selected
three times over the demonstration tables. -/
theorem repeated_ids_uncapped_witness :
    ((computeLayout demoSlots demoBadges
        (List.replicate 3 "m1")).1).length = 3 ∧
    (∀ p ∈ (computeLayout demoSlots demoBadges
        (List.replicate 3 "m1")).1,
      p.id = "m1" ∧
      p.label = (⟨"M1", "medalsBelowRightPocket", "#07c", none⟩ :
        Badge).label ∧
      p.color = (⟨"M1", "medalsBelowRightPocket", "#07c", none⟩ :
        Badge).color) ∧
    ((computeLayout demoSlots demoBadges
        (List.replicate 3 "m1")).1).Pairwise (· ≠ ·) :=
  repeated_ids_uncapped demoSlots demoBadges "m1"
    ⟨"M1", "medalsBelowRightPocket", "#07c", none⟩
    ⟨560, 430, 240, 60, 11⟩ 3 (by decide) (Or.inl rfl) (by decide)

end BadgeVisualizer
